import Mathlib

/-!
Verification of the treetex Merkle-tree renderer
(docs/merkletree/treetex/main.go).

The renderer decomposes a tree of `size` leaves into perfect subtrees,
joins them with ephemeral nodes, optionally collapses tall perfect
subtrees into single "mega" blocks, and resolves a visual attribute set
per node from an annotation table.

The Go program emits LaTeX text through fmt.Printf; here each emission
is modelled as a structured `Event`, and the mutable per-node annotation
map `nInfo` is modelled as a total function `Table` with the Go map's
zero-value-on-miss semantics.  The external compact-range and proof
primitives (github.com/transparency-dev/merkle) are not part of this
repository's sources; they are modelled from the spec's contracts for
`DecompositionProvider` and `ProofProvider`.
-/

namespace Treetex

/-- Node identity `(level, index)`; level 0 is the leaf layer.  Mirrors the
`compact.NodeID` addressing scheme consumed by the source. -/
structure NodeID where
  level : Nat
  index : Nat
deriving DecidableEq, Repr

instance : Inhabited NodeID := ⟨⟨0, 0⟩⟩

/-- Modelled from the spec: NodeAddressing parent relation of the external
`compact` package (`parent()` of `(l, i)` is `(l+1, i/2)`). -/
def NodeID.parent (id : NodeID) : NodeID := ⟨id.level + 1, id.index / 2⟩

/-- Modelled from the spec: NodeAddressing sibling relation of the external
`compact` package (flip the lowest index bit). -/
def NodeID.sibling (id : NodeID) : NodeID := ⟨id.level, id.index ^^^ 1⟩

/-- Modelled from the spec: `coverage() -> (begin, end)`, the half-open
leaf-index range spanned by the node's descendant leaves. -/
def NodeID.coverage (id : NodeID) : Nat × Nat :=
  (id.index * 2 ^ id.level, (id.index + 1) * 2 ^ id.level)

/-- Annotation record for one node; field-for-field image of the Go
`nodeInfo` struct (proof, incPath, target, perfectRoot, ephemeral, leaf,
dataRangeIndices, rangeIndices). -/
structure NodeInfo where
  proof : Bool
  incPath : Bool
  target : Bool
  perfectRoot : Bool
  ephemeral : Bool
  leaf : Bool
  dataRangeIndices : List Nat
  rangeIndices : List Nat
deriving DecidableEq, Repr

/-- The zero value of `nodeInfo`: what the Go map `nInfo` yields for an
absent key. -/
def NodeInfo.empty : NodeInfo := ⟨false, false, false, false, false, false, [], []⟩

instance : Inhabited NodeInfo := ⟨NodeInfo.empty⟩

/-- Marking operation used by `renderTree` for joining nodes:
`n.ephemeral = true`. -/
def setEphemeral (n : NodeInfo) : NodeInfo := { n with ephemeral := true }

/-- Marking operation used by `perfectInner`: `n.perfectRoot = top`. -/
def setPerfectRoot (top : Bool) (n : NodeInfo) : NodeInfo := { n with perfectRoot := top }

/-- Marking operation used by the inclusion block of `main`:
`n.proof = true`. -/
def setProof (n : NodeInfo) : NodeInfo := { n with proof := true }

/-- Marking operation used by the inclusion block of `main`:
`n.incPath = true`. -/
def setIncPath (n : NodeInfo) : NodeInfo := { n with incPath := true }

/-- Marking operation used by `modifyRangeNodeInfo` on leaves:
append `ri` to `dataRangeIndices`. -/
def appendDataRange (ri : Nat) (n : NodeInfo) : NodeInfo :=
  { n with dataRangeIndices := n.dataRangeIndices ++ [ri] }

/-- Marking operation used by `modifyRangeNodeInfo` on subtree roots:
append `ri` to `rangeIndices`. -/
def appendRangeIdx (ri : Nat) (n : NodeInfo) : NodeInfo :=
  { n with rangeIndices := n.rangeIndices ++ [ri] }

/-- The annotation table `nInfo`, as a total function with zero-value
defaults (a Go map read returns `nodeInfo{}` for a missing key). -/
def Table : Type := NodeID → NodeInfo

/-- The table at program start: every node unannotated. -/
def initTable : Table := fun _ => NodeInfo.empty

/-- Image of Go `modifyNodeInfo`: read the entry for `id` (zero value if
absent), apply `f`, store it back.  All other entries are untouched. -/
def modifyNodeInfo (id : NodeID) (f : NodeInfo → NodeInfo) (st : Table) : Table :=
  fun j => if j = id then f (st j) else st j

/-- Fill-colour resolution of `nodeInfo.String`, in the source's exact
order: white base, proof / proof_ephemeral, single-entry range fills
(dataRangeIndices for leaves, rangeIndices otherwise), target, incPath. -/
def NodeInfo.fill (n : NodeInfo) : String :=
  let f1 := if n.proof then (if n.ephemeral then "proof_ephemeral" else "proof") else "white"
  let f2 :=
    if n.leaf then
      (if n.dataRangeIndices.length = 1 then
        "target" ++ toString (n.dataRangeIndices.headD 0) ++ "!50"
      else f1)
    else
      (if n.rangeIndices.length = 1 then
        "range" ++ toString (n.rangeIndices.headD 0) ++ "!50"
      else f1)
  let f3 := if n.target then "target" else f2
  if n.incPath then "target_path" else f3

/-- Positional band names used by `nodeInfo.String` for nodes in 2 or 3
ranges. -/
def posNames : List String := ["left", "right", "middle"]

/-- Banding attributes of `nodeInfo.String`: one colour chip per range
entry when a node is in more than one range. -/
def NodeInfo.bandAttrs (n : NodeInfo) : List String :=
  if n.leaf then
    (if n.dataRangeIndices.length > 1 then
      n.dataRangeIndices.enum.map
        (fun p => posNames.getD p.1 "" ++ " color=target" ++ toString p.2 ++ "!50")
    else [])
  else
    (if n.rangeIndices.length > 1 then
      n.rangeIndices.enum.map
        (fun p => posNames.getD p.1 "" ++ " color=range" ++ toString p.2 ++ "!50")
    else [])

/-- Full attribute string of `nodeInfo.String`: perfect-root treatment,
band chips, fill, border (draw vs the ephemeral treatment), shape. -/
def NodeInfo.attrString (n : NodeInfo) (aPerfectRoot aEphemeral : String) : String :=
  String.intercalate ", "
    ((if n.perfectRoot then [aPerfectRoot] else []) ++
      n.bandAttrs ++
      ["fill=" ++ n.fill] ++
      [if n.ephemeral then aEphemeral else "draw"] ++
      [if n.leaf then "minimum size=1.5em, align=center, base=bottom"
       else "circle, minimum size=3em, align=center"])

/-- One emission of the renderer.  Each constructor corresponds to one
Printf site of the source: `openNode`/`closeNode` to `openInnerNode`,
`leafHash`/`leafData` to the two prints of `drawLeaf`, `megaBlock` and
the placeholder events to the prints of `perfectMega`.  Node events carry
the `NodeInfo` snapshot whose attributes are rendered. -/
inductive Event where
  | openNode (id : NodeID) (info : NodeInfo)
  | closeNode
  | leafHash (index : Nat) (info : NodeInfo)
  | leafData (index : Nat) (info : NodeInfo)
  | megaBlock (b e : Nat)
  | placeholderOpen (tier : Nat)
  | placeholderClose
deriving DecidableEq, Repr

/-- Image of Go `drawLeaf`: emit the leaf-hash node (with `incPath`
cleared when the leaf has data-range bands), then the nested leaf-data
node (re-read from the table, `leaf` set, `proof` cleared, `target`
taking the table's `incPath`, `incPath` cleared). -/
def drawLeaf (index : Nat) (st : Table) : Table × List Event :=
  let id : NodeID := ⟨0, index⟩
  let a := st id
  let a := if a.dataRangeIndices.length > 0 then { a with incPath := false } else a
  let b := st id
  let b := { b with leaf := true, proof := false, target := b.incPath, incPath := false }
  (st, [Event.leafHash index a, Event.leafData index b])

/-- Image of Go `perfectMega`: one collapsed block covering the node's
leaf range, followed by hidden placeholder nodes for tiers
`level-2, ..., 1` (opened in that order, closed afterwards by the
deferred prints, innermost first). -/
def perfectMegaEvents (id : NodeID) : List Event :=
  Event.megaBlock id.coverage.1 id.coverage.2 ::
    ((List.range' 1 (id.level - 2)).reverse.map Event.placeholderOpen ++
      List.replicate (id.level - 2) Event.placeholderClose)

/-- Image of Go `perfectInner`, structurally recursive on the node level
(which the source decrements by one on each recursive call).  Marks the
node `perfectRoot = top`, draws a leaf at level 0, collapses via
`perfectMega` when `level > mega`, and otherwise opens the node and
recurses into `(level-1, index*2)` and its sibling. -/
def perfectInnerAux (mega : Nat) : Nat → Nat → Bool → Table → Table × List Event
  | 0, index, top, st =>
      let st := modifyNodeInfo ⟨0, index⟩ (setPerfectRoot top) st
      drawLeaf index st
  | level + 1, index, top, st =>
      let id : NodeID := ⟨level + 1, index⟩
      let st := modifyNodeInfo id (setPerfectRoot top) st
      let opened := Event.openNode id (st id)
      if level + 1 > mega then
        (st, opened :: (perfectMegaEvents id ++ [Event.closeNode]))
      else
        let left : NodeID := ⟨level, index * 2⟩
        let res1 := perfectInnerAux mega level left.index false st
        let res2 := perfectInnerAux mega level left.sibling.index false res1.1
        (res2.1, opened :: ((res1.2 ++ res2.2) ++ [Event.closeNode]))

/-- `perfectInner` on a `NodeID`. -/
def perfectInner (mega : Nat) (id : NodeID) (top : Bool) (st : Table) : Table × List Event :=
  perfectInnerAux mega id.level id.index top st

/-- Image of Go `perfect`: render a perfect subtree with its root marked. -/
def perfect (mega : Nat) (id : NodeID) (st : Table) : Table × List Event :=
  perfectInner mega id true st

/-- Search step for the largest aligned perfect subtree at `lo`: climb
while `2^(l+1)` divides `lo` and the block still fits under `hi`. -/
def alignedLevelAux (lo hi : Nat) : Nat → Nat → Nat
  | 0, l => l
  | fuel + 1, l =>
      if lo % 2 ^ (l + 1) = 0 ∧ lo + 2 ^ (l + 1) ≤ hi then alignedLevelAux lo hi fuel (l + 1)
      else l

/-- Level of the maximal perfect subtree rooted at leaf offset `lo` that
fits inside `[lo, hi)`. -/
def maxAlignedLevel (lo hi : Nat) : Nat := alignedLevelAux lo hi hi 0

/-- Fuelled left-to-right decomposition of `[lo, hi)` into maximal
perfect subtrees. -/
def rootsCoveringAux (hi : Nat) : Nat → Nat → List NodeID
  | 0, _ => []
  | fuel + 1, lo =>
      if lo < hi then
        let l := maxAlignedLevel lo hi
        ⟨l, lo / 2 ^ l⟩ :: rootsCoveringAux hi fuel (lo + 2 ^ l)
      else []

/-- Modelled from the spec: `DecompositionProvider.rootsCovering(lo, hi)`
of the external `compact.RangeNodes` primitive — the ordered subtree
roots whose coverage ranges partition `[lo, hi)` contiguously, left to
right, each a maximal power-of-two block. -/
def rootsCovering (lo hi : Nat) : List NodeID := rootsCoveringAux hi (hi - lo) lo

/-- Image of the loop body of Go `renderTree`: for each root except the
last, mark its parent ephemeral and open it as a joining node before
descending; all joining nodes are closed at function exit in reverse
order of opening (deferred closes). -/
def renderSeq (mega : Nat) : List NodeID → Table → Table × List Event
  | [], st => (st, [])
  | id :: rest, st =>
      if rest.isEmpty then perfect mega id st
      else
        let ephem := id.parent
        let st := modifyNodeInfo ephem setEphemeral st
        let opened := Event.openNode ephem (st ephem)
        let res1 := perfect mega id st
        let res2 := renderSeq mega rest res1.1
        (res2.1, opened :: ((res1.2 ++ res2.2) ++ [Event.closeNode]))

/-- Image of Go `renderTree`: decompose `[0, size)` and render the roots
with ephemeral joining nodes between them. -/
def renderTree (size mega : Nat) (st : Table) : Table × List Event :=
  renderSeq mega (rootsCovering 0 size) st

/-- Fuelled base-2 logarithm (floor). -/
def log2Fuel : Nat → Nat → Nat
  | 0, _ => 0
  | fuel + 1, n => if 2 ≤ n then log2Fuel fuel (n / 2) + 1 else 0

/-- Image of Go `bits.Len64`: minimal number of bits representing `n`
(0 for 0). -/
def bitsLen (n : Nat) : Nat := if n = 0 then 0 else log2Fuel n n + 1

/-- Ascent loop of `main`: mark `incPath` on `id` and its parents while
`level < height`. -/
def ascendAux (height : Nat) : Nat → NodeID → Table → Table
  | 0, _, st => st
  | fuel + 1, id, st =>
      if id.level < height then
        ascendAux height fuel id.parent (modifyNodeInfo id setIncPath st)
      else st

/-- Marking of the inclusion path from `id` upward until `height`. -/
def ascendMark (height : Nat) (id : NodeID) (st : Table) : Table :=
  ascendAux height (height - id.level) id st

/-- Image of the proof-marking loop of `main`: mark each listed proof
node `proof = true`, skipping entries `i` with
`begin <= i < end && begin+1 < end` (children of the ephemeral node). -/
def markProofNodes (b e : Nat) : Nat → List NodeID → Table → Table
  | _, [], st => st
  | i, id :: rest, st =>
      let st := if b ≤ i ∧ i < e ∧ b + 1 < e then st else modifyNodeInfo id setProof st
      markProofNodes b e (i + 1) rest st

/-- Image of the body of `main`'s inclusion block after the proof
primitive returned `(pf, b, e)` for target leaf `t`: mark the target
leaf `incPath`, mark the proof nodes (with the ephemeral-span skip),
mark `parent(pf[e-1])` as proof stand-in when `b+1 < e`, then ascend
from the leaf marking `incPath` up to `height`. -/
def inclusionMarks (height t : Nat) (pf : List NodeID) (b e : Nat) (st : Table) : Table :=
  let leafID : NodeID := ⟨0, t⟩
  let st := modifyNodeInfo leafID setIncPath st
  let st := markProofNodes b e 0 pf st
  let st := if b + 1 < e then modifyNodeInfo ((pf.getD (e - 1) default).parent) setProof st else st
  ascendMark height leafID st

/-- Image of `main`'s inclusion handling: the marking runs only under the
guard `*inclusion > 0`, with `height = bits.Len64(treeSize-1) + 1`.
The proof list `pf` and ephemeral span `[b, e)` stand for the values the
external `proof.Inclusion`/`Ephem` primitives return (the spec's
ProofProvider, which succeeds whenever the target is below `treeSize`). -/
def inclusionBlock (inclusion : Int) (treeSize : Nat) (pf : List NodeID) (b e : Nat)
    (st : Table) : Table :=
  let height := bitsLen (treeSize - 1) + 1
  if 0 < inclusion then inclusionMarks height inclusion.toNat pf b e st else st

/-- Maximum number of ranges the source accepts. -/
def maxRanges : Nat := 3

/-- Per-pair validation loop of Go `parseRanges`: reject a range past the
end of the tree, then a range whose elements are out of order. -/
def parseRangesAux (treeSize : Nat) : List (Nat × Nat) → Except String (List (Nat × Nat))
  | [] => .ok []
  | (l, r) :: rest =>
      if treeSize < r then .error "range extends past end of tree"
      else if r < l then .error "range elements are out of order"
      else
        match parseRangesAux treeSize rest with
        | .error msg => .error msg
        | .ok t => .ok ((l, r) :: t)

/-- Image of Go `parseRanges` at the level of already-lexed `L:R` pairs
(the textual splitting and Sscanf lexing are not modelled): reject more
than `maxRanges` ranges, then validate each pair in order. -/
def parseRanges (pairs : List (Nat × Nat)) (treeSize : Nat) :
    Except String (List (Nat × Nat)) :=
  if maxRanges < pairs.length then .error "too many ranges"
  else parseRangesAux treeSize pairs

/-- Leaf loop of Go `modifyRangeNodeInfo`: append `ri` to
`dataRangeIndices` of every leaf `i` with `l <= i < r` (fuelled
counterpart of `for i := l; i < r; i++`). -/
def markLeavesAux (ri r : Nat) : Nat → Nat → Table → Table
  | 0, _, st => st
  | fuel + 1, i, st =>
      if i < r then markLeavesAux ri r fuel (i + 1) (modifyNodeInfo ⟨0, i⟩ (appendDataRange ri) st)
      else st

/-- Leaf loop of Go `modifyRangeNodeInfo` over `[l, r)`. -/
def markLeaves (ri l r : Nat) (st : Table) : Table := markLeavesAux ri r (r - l) l st

/-- Image of the range loop of Go `modifyRangeNodeInfo`: for range number
`ri` over `[l, r)`, append `ri` to the leaves' `dataRangeIndices` and to
the `rangeIndices` of every decomposition root of `[l, r)`. -/
def applyRanges : Nat → List (Nat × Nat) → Table → Table
  | _, [], st => st
  | ri, (l, r) :: rest, st =>
      let st := markLeaves ri l r st
      let st := (rootsCovering l r).foldl (fun st id => modifyNodeInfo id (appendRangeIdx ri) st) st
      applyRanges (ri + 1) rest st

/-- Image of Go `modifyRangeNodeInfo`: parse-and-validate, then apply
every accepted range in order; on error nothing is applied and `main`
aborts before any rendering output. -/
def modifyRangeNodeInfo (pairs : List (Nat × Nat)) (treeSize : Nat) (st : Table) :
    Except String Table :=
  match parseRanges pairs treeSize with
  | .error msg => .error msg
  | .ok rngs => .ok (applyRanges 0 rngs st)

/-- Indices of the leaf-data nodes in an emission sequence, in emission
order. -/
def leafDataIndices (evs : List Event) : List Nat :=
  evs.filterMap (fun ev => match ev with | .leafData i _ => some i | _ => none)

/-- Test for a hidden placeholder open emitted by `perfectMega`. -/
def isPlaceholderOpen : Event → Bool
  | .placeholderOpen _ => true
  | _ => false

/-- Number of hidden placeholder nodes in an emission sequence. -/
def countPlaceholderOpens (evs : List Event) : Nat :=
  (evs.filter isPlaceholderOpen).length

/-- Test for an opened node whose rendered snapshot is ephemeral. -/
def isEphemOpen : Event → Bool
  | .openNode _ info => info.ephemeral
  | _ => false

/-- Number of ephemeral nodes opened in an emission sequence. -/
def countEphemOpens (evs : List Event) : Nat :=
  (evs.filter isEphemOpen).length

/-- The range numbers (counted from `k`) of the ranges in `rngs` covering
leaf `i`, in declaration order. -/
def coveringRangeIdxs : Nat → List (Nat × Nat) → Nat → List Nat
  | _, [], _ => []
  | k, (l, r) :: rest, i =>
      (if l ≤ i ∧ i < r then [k] else []) ++ coveringRangeIdxs (k + 1) rest i

/-- Leaf indices covered by a node, as an explicit ascending list. -/
def coverageList (id : NodeID) : List Nat :=
  List.range' (id.index * 2 ^ id.level) (2 ^ id.level)

/-- Concatenated coverage of a list of nodes, left to right. -/
def coverConcat : List NodeID → List Nat
  | [] => []
  | id :: rest => coverageList id ++ coverConcat rest

/-! ### Basic lemmas about the annotation table -/

theorem modify_apply_eq (id : NodeID) (f : NodeInfo → NodeInfo) (st : Table) :
    modifyNodeInfo id f st id = f (st id) := by
  simp [modifyNodeInfo]

theorem modify_apply_ne {j id : NodeID} (f : NodeInfo → NodeInfo) (st : Table) (h : j ≠ id) :
    modifyNodeInfo id f st j = st j := by
  simp [modifyNodeInfo, h]

theorem count_placeholder_append (a b : List Event) :
    countPlaceholderOpens (a ++ b) = countPlaceholderOpens a + countPlaceholderOpens b := by
  simp [countPlaceholderOpens, List.filter_append]

theorem count_placeholder_opens_map (l : List Nat) :
    countPlaceholderOpens (l.map Event.placeholderOpen) = l.length := by
  induction l with
  | nil => rfl
  | cons x xs ih => simp [countPlaceholderOpens, isPlaceholderOpen] at ih ⊢; omega

theorem count_placeholder_closes (k : Nat) :
    countPlaceholderOpens (List.replicate k Event.placeholderClose) = 0 := by
  induction k with
  | zero => rfl
  | succ k ih => simp [countPlaceholderOpens, isPlaceholderOpen, List.replicate_succ]

theorem modify_preserve {α : Type} (P : NodeInfo → α) (f : NodeInfo → NodeInfo)
    (hf : ∀ n, P (f n) = P n) (id : NodeID) (st : Table) (j : NodeID) :
    P (modifyNodeInfo id f st j) = P (st j) := by
  by_cases h : j = id
  · subst h; rw [modify_apply_eq]; exact hf _
  · rw [modify_apply_ne _ _ h]

theorem modify_setEphemeral_iff (id : NodeID) (st : Table) (j : NodeID) :
    ((modifyNodeInfo id setEphemeral st) j).ephemeral = true ↔
      (st j).ephemeral = true ∨ j = id := by
  by_cases h : j = id
  · subst h; simp [modify_apply_eq, setEphemeral]
  · simp [modify_apply_ne _ _ h, h]

theorem modify_setProof_iff (id : NodeID) (st : Table) (j : NodeID) :
    ((modifyNodeInfo id setProof st) j).proof = true ↔
      (st j).proof = true ∨ j = id := by
  by_cases h : j = id
  · subst h; simp [modify_apply_eq, setProof]
  · simp [modify_apply_ne _ _ h, h]

theorem modify_setIncPath_iff (id : NodeID) (st : Table) (j : NodeID) :
    ((modifyNodeInfo id setIncPath st) j).incPath = true ↔
      (st j).incPath = true ∨ j = id := by
  by_cases h : j = id
  · subst h; simp [modify_apply_eq, setIncPath]
  · simp [modify_apply_ne _ _ h, h]

/-! ### Preservation lemmas along the rendering and marking passes -/

theorem perfectInnerAux_fst_ephemeral (mega L : Nat) :
    ∀ index top st j,
      ((perfectInnerAux mega L index top st).1 j).ephemeral = (st j).ephemeral := by
  induction L with
  | zero =>
      intro index top st j
      simp only [perfectInnerAux, drawLeaf]
      exact modify_preserve NodeInfo.ephemeral (setPerfectRoot top) (fun n => rfl) _ _ _
  | succ l ih =>
      intro index top st j
      by_cases hm : l + 1 > mega
      · simp only [perfectInnerAux, if_pos hm]
        exact modify_preserve NodeInfo.ephemeral (setPerfectRoot top) (fun n => rfl) _ _ _
      · simp only [perfectInnerAux, if_neg hm]
        rw [ih, ih]
        exact modify_preserve NodeInfo.ephemeral (setPerfectRoot top) (fun n => rfl) _ _ _

theorem perfect_fst_ephemeral (mega : Nat) (id : NodeID) (st : Table) (j : NodeID) :
    ((perfect mega id st).1 j).ephemeral = (st j).ephemeral :=
  perfectInnerAux_fst_ephemeral mega id.level id.index true st j

theorem renderSeq_ephemeral (mega : Nat) (ids : List NodeID) :
    ∀ st j, ((renderSeq mega ids st).1 j).ephemeral = true ↔
      (st j).ephemeral = true ∨ j ∈ ids.dropLast.map NodeID.parent := by
  induction ids with
  | nil => intro st j; simp [renderSeq]
  | cons id rest ih =>
      intro st j
      cases rest with
      | nil =>
          simp [renderSeq, perfect, perfectInner, perfectInnerAux_fst_ephemeral]
      | cons r rs =>
          rw [show (renderSeq mega (id :: r :: rs) st).1 =
            (renderSeq mega (r :: rs)
              (perfect mega id (modifyNodeInfo id.parent setEphemeral st)).1).1 from rfl]
          rw [ih, perfect_fst_ephemeral, modify_setEphemeral_iff]
          rw [show (id :: r :: rs).dropLast = id :: (r :: rs).dropLast from rfl]
          rw [List.map_cons, List.mem_cons, or_assoc]

/-- C3: the renderer synthesizes the ephemeral joining nodes exactly at
the parents of the non-final perfect-subtree roots: after a full
rendering pass from a fresh table, a node is marked `ephemeral` iff it
is `parent(root_i)` for a non-last decomposition root.  Per root the
joining node is opened before descending into the root and closed after
the remaining roots (reverse order of opening); for `size = 5` the
decomposition is two roots and the whole output contains exactly one
ephemeral node, opened first and closed last. -/
theorem c3_ephemeral_joining :
    (∀ size mega j, ((renderTree size mega initTable).1 j).ephemeral = true ↔
        j ∈ (rootsCovering 0 size).dropLast.map NodeID.parent) ∧
    (∀ mega st id r rs, (renderSeq mega (id :: r :: rs) st).2 =
        Event.openNode id.parent
            (modifyNodeInfo id.parent setEphemeral st id.parent) ::
          (((perfect mega id (modifyNodeInfo id.parent setEphemeral st)).2 ++
            (renderSeq mega (r :: rs)
              ((perfect mega id (modifyNodeInfo id.parent setEphemeral st)).1)).2) ++
            [Event.closeNode])) ∧
    (∀ mega st id, (renderSeq mega [id] st).2 = (perfect mega id st).2) ∧
    rootsCovering 0 5 = [⟨2, 0⟩, ⟨0, 4⟩] ∧
    countEphemOpens (renderTree 5 4 initTable).2 = 1 ∧
    (renderTree 5 4 initTable).2.head? =
      some (Event.openNode ⟨3, 0⟩ (setEphemeral NodeInfo.empty)) ∧
    (renderTree 5 4 initTable).2.getLast? = some Event.closeNode := by
  refine ⟨?_, fun mega st id r rs => rfl, fun mega st id => rfl,
    by decide, by decide, by decide, by decide⟩
  intro size mega j
  rw [renderTree, renderSeq_ephemeral]
  simp [initTable, NodeInfo.empty]

theorem markProofNodes_incPath (b e : Nat) (pf : List NodeID) :
    ∀ i st j, ((markProofNodes b e i pf st) j).incPath = (st j).incPath := by
  induction pf with
  | nil => intro i st j; rfl
  | cons id rest ih =>
      intro i st j
      simp only [markProofNodes]
      rw [ih]
      by_cases hc : b ≤ i ∧ i < e ∧ b + 1 < e
      · simp [hc]
      · simp only [if_neg hc]
        exact modify_preserve NodeInfo.incPath setProof (fun n => rfl) _ _ _

theorem markProofNodes_proof (b e : Nat) (pf : List NodeID) :
    ∀ i st j, ((markProofNodes b e i pf st) j).proof = true ↔
      (st j).proof = true ∨ ∃ k, k < pf.length ∧ pf.getD k default = j ∧
        ¬(b ≤ i + k ∧ i + k < e ∧ b + 1 < e) := by
  induction pf with
  | nil => intro i st j; simp [markProofNodes]
  | cons id rest ih =>
      intro i st j
      simp only [markProofNodes]
      rw [ih]
      by_cases hc : b ≤ i ∧ i < e ∧ b + 1 < e
      · simp only [if_pos hc]
        constructor
        · rintro (h | ⟨k, hk, hj, hcond⟩)
          · exact Or.inl h
          · refine Or.inr ⟨k + 1, by simp only [List.length_cons]; omega,
              by simpa using hj, ?_⟩
            intro hx; exact hcond ⟨by omega, by omega, hx.2.2⟩
        · rintro (h | ⟨k, hk, hj, hcond⟩)
          · exact Or.inl h
          · cases k with
            | zero => exact absurd hc (by simpa using hcond)
            | succ k =>
                refine Or.inr ⟨k, by simp only [List.length_cons] at hk; omega,
                  by simpa using hj, ?_⟩
                intro hx; exact hcond ⟨by omega, by omega, hx.2.2⟩
      · simp only [if_neg hc]
        rw [modify_setProof_iff]
        constructor
        · rintro ((h | rfl) | ⟨k, hk, hj, hcond⟩)
          · exact Or.inl h
          · exact Or.inr ⟨0, by simp, by simp, by simpa using hc⟩
          · refine Or.inr ⟨k + 1, by simp only [List.length_cons]; omega,
              by simpa using hj, ?_⟩
            intro hx; exact hcond ⟨by omega, by omega, hx.2.2⟩
        · rintro (h | ⟨k, hk, hj, hcond⟩)
          · exact Or.inl (Or.inl h)
          · cases k with
            | zero => exact Or.inl (Or.inr (by simpa using hj.symm))
            | succ k =>
                refine Or.inr ⟨k, by simp only [List.length_cons] at hk; omega,
                  by simpa using hj, ?_⟩
                intro hx; exact hcond ⟨by omega, by omega, hx.2.2⟩

theorem ascendAux_proof (height : Nat) :
    ∀ fuel id st j, ((ascendAux height fuel id st) j).proof = (st j).proof := by
  intro fuel
  induction fuel with
  | zero => intro id st j; rfl
  | succ f ih =>
      intro id st j
      by_cases h : id.level < height
      · simp only [ascendAux, if_pos h]
        rw [ih]
        exact modify_preserve NodeInfo.proof setIncPath (fun n => rfl) _ _ _
      · simp [ascendAux, h]

theorem ascendAux_incPath (height : Nat) :
    ∀ fuel id st j, id.level + fuel = height →
      (((ascendAux height fuel id st) j).incPath = true ↔
        (st j).incPath = true ∨
          ∃ d, d < fuel ∧ j = ⟨id.level + d, id.index / 2 ^ d⟩) := by
  intro fuel
  induction fuel with
  | zero => intro id st j h; simp [ascendAux]
  | succ f ih =>
      intro id st j h
      have hlt : id.level < height := by omega
      simp only [ascendAux, if_pos hlt]
      rw [ih id.parent _ j (by simp [NodeID.parent]; omega)]
      rw [modify_setIncPath_iff]
      have hpl : id.parent.level = id.level + 1 := rfl
      have hpi : id.parent.index = id.index / 2 := rfl
      constructor
      · rintro ((hst | rfl) | ⟨d, hd, rfl⟩)
        · exact Or.inl hst
        · exact Or.inr ⟨0, by omega, by simp⟩
        · refine Or.inr ⟨d + 1, by omega, ?_⟩
          rw [hpl, hpi]
          have : id.index / 2 / 2 ^ d = id.index / 2 ^ (d + 1) := by
            rw [Nat.div_div_eq_div_mul, Nat.pow_succ, Nat.mul_comm]
          rw [this]
          congr 1
          omega
      · rintro (hst | ⟨d, hd, rfl⟩)
        · exact Or.inl (Or.inl hst)
        · cases d with
          | zero => exact Or.inl (Or.inr (by simp))
          | succ d =>
              refine Or.inr ⟨d, by omega, ?_⟩
              rw [hpl, hpi]
              have : id.index / 2 / 2 ^ d = id.index / 2 ^ (d + 1) := by
                rw [Nat.div_div_eq_div_mul, Nat.pow_succ, Nat.mul_comm]
              rw [this]
              congr 1
              omega

/-- C5 (counterexample): the claim covers every valid target leaf
`0 <= t < size`, but `main` honours the inclusion flag only when it is
strictly positive, so for target 0 (a valid leaf of a size-5 tree) no
node at all is marked — not even leaf 0 itself. -/
theorem c5_counterexample :
    (0 : Nat) < 5 ∧
    ((inclusionBlock ((0 : Nat) : Int) 5 [⟨0, 1⟩, ⟨1, 1⟩, ⟨0, 4⟩] 0 0 initTable)
        ⟨0, 0⟩).incPath = false := by
  refine ⟨by decide, by decide⟩

/-- C5 (amended): for every target leaf index `t` with `0 < t < size`,
after `main`'s inclusion block the nodes marked `isInclusionPathNode`
are exactly the ancestor chain of leaf `t` from the leaf (level 0) up to
the root (level `bitsLen(size-1)`, i.e. every level below the tree
height), by repeated `parent()` ascent; no other node is marked.  A
target of 0 is ignored because the flag guard requires `inclusion > 0`. -/
theorem inclusionMarks_incPath (height t : Nat) (pf : List NodeID) (b e : Nat)
    (h0 : 0 < height) (j : NodeID) :
    ((inclusionMarks height t pf b e initTable) j).incPath = true ↔
      ∃ d, d < height ∧ j = ⟨d, t / 2 ^ d⟩ := by
  have hmid : ∀ st' : Table,
      ((if b + 1 < e then
          modifyNodeInfo ((pf.getD (e - 1) default).parent) setProof st'
        else st') j).incPath = (st' j).incPath := by
    intro st'
    by_cases hbe : b + 1 < e
    · simp only [if_pos hbe]
      exact modify_preserve NodeInfo.incPath setProof (fun n => rfl) _ _ _
    · simp [hbe]
  simp only [inclusionMarks, ascendMark]
  rw [ascendAux_incPath height _ _ _ _ (by simp)]
  rw [hmid, markProofNodes_incPath, modify_setIncPath_iff]
  simp only [initTable, NodeInfo.empty, Bool.false_eq_true, false_or]
  constructor
  · rintro (rfl | ⟨d, hd, rfl⟩)
    · exact ⟨0, h0, by simp⟩
    · exact ⟨d, by simpa using hd, by simp⟩
  · rintro ⟨d, hd, rfl⟩
    exact Or.inr ⟨d, by simpa using hd, by simp⟩

/-- C5 (amended): for every target leaf index `t` with `0 < t < size`,
after the inclusion block of `main` the nodes marked
`isInclusionPathNode` are exactly the ancestor chain of leaf `t` from
the leaf (level 0) up to the root (every level below the tree height
`bitsLen(size-1) + 1`), obtained by repeated `parent()` ascent; no other
node is marked.  A target of 0, though a valid leaf, is ignored because
the code's flag guard requires `inclusion > 0`. -/
theorem c5_inclusion_path (t size : Nat) (pf : List NodeID) (b e : Nat)
    (h1 : 0 < t) (h2 : t < size) (j : NodeID) :
    ((inclusionBlock ((t : Nat) : Int) size pf b e initTable) j).incPath = true ↔
      (j.level < bitsLen (size - 1) + 1 ∧ j.index = t / 2 ^ j.level) := by
  have hguard : (0 : Int) < ((t : Nat) : Int) := by exact_mod_cast h1
  rw [show inclusionBlock ((t : Nat) : Int) size pf b e initTable =
      inclusionMarks (bitsLen (size - 1) + 1) t pf b e initTable from by
    simp [inclusionBlock, hguard]]
  rw [inclusionMarks_incPath _ _ _ _ _ (by omega)]
  constructor
  · rintro ⟨d, hd, rfl⟩
    exact ⟨hd, rfl⟩
  · rintro ⟨hl, hi⟩
    exact ⟨j.level, hl, by rw [← hi]⟩

/-- C5 (witness): target leaf 1 in a size-5 tree marks the level-2
ancestor (2,0). -/
theorem c5_witness :
    (0 : Nat) < 1 ∧ (1 : Nat) < 5 ∧
    ((inclusionBlock ((1 : Nat) : Int) 5 [⟨0, 0⟩, ⟨1, 1⟩, ⟨0, 4⟩] 2 3 initTable)
        ⟨2, 0⟩).incPath = true :=
  ⟨by decide, by decide,
    (c5_inclusion_path 1 5 [⟨0, 0⟩, ⟨1, 1⟩, ⟨0, 4⟩] 2 3 (by decide) (by decide)
      ⟨2, 0⟩).mpr (by decide)⟩

/-- C6: given the proof-node list `pf` and ephemeral span `[b, e)`
returned by the proof primitive, the nodes marked `isProofNode` are
exactly the listed proof nodes outside the span (all of them when
`e - b <= 1`), plus `parent(pf[e-1])` as the stand-in for the absorbed
span exactly when `e - b > 1`. -/
theorem c6_proof_marking (height t : Nat) (pf : List NodeID) (b e : Nat) (j : NodeID)
    (hbe : b ≤ e) (hel : e ≤ pf.length) :
    ((inclusionMarks height t pf b e initTable) j).proof = true ↔
      ((∃ k, k < pf.length ∧ pf.getD k default = j ∧ ¬(b ≤ k ∧ k < e ∧ b + 1 < e)) ∨
        (b + 1 < e ∧ j = (pf.getD (e - 1) default).parent)) := by
  have hinit : ((modifyNodeInfo ⟨0, t⟩ setIncPath initTable) j).proof = false := by
    rw [modify_preserve NodeInfo.proof setIncPath (fun n => rfl)]
    rfl
  simp only [inclusionMarks, ascendMark]
  rw [ascendAux_proof]
  by_cases hb : b + 1 < e
  · simp only [if_pos hb]
    rw [modify_setProof_iff, markProofNodes_proof, hinit]
    simp only [Bool.false_eq_true, false_or, Nat.zero_add]
    constructor
    · rintro (h | rfl)
      · exact Or.inl h
      · exact Or.inr ⟨hb, rfl⟩
    · rintro (h | ⟨_, rfl⟩)
      · exact Or.inl h
      · exact Or.inr rfl
  · simp only [if_neg hb]
    rw [markProofNodes_proof, hinit]
    simp only [Bool.false_eq_true, false_or, Nat.zero_add]
    constructor
    · exact fun h => Or.inl h
    · rintro (h | ⟨hb2, _⟩)
      · exact h
      · exact absurd hb2 hb

/-- C6 (witness): span `[0, 3)` over a three-node proof list marks none
of the listed nodes individually but marks the parent of the last
spanned node. -/
theorem c6_witness :
    (0 : Nat) ≤ 3 ∧ (3 : Nat) ≤ 3 ∧
    ((inclusionMarks 4 1 [⟨0, 3⟩, ⟨1, 0⟩, ⟨2, 1⟩] 0 3 initTable) ⟨3, 0⟩).proof = true :=
  ⟨by decide, by decide,
    (c6_proof_marking 4 1 [⟨0, 3⟩, ⟨1, 0⟩, ⟨2, 1⟩] 0 3 ⟨3, 0⟩ (by decide)
      (by decide)).mpr (Or.inr ⟨by decide, by decide⟩)⟩

/-! ### Leaf-data emission: decomposition coverage and the rendering walk -/

theorem mul_two_xor_one (i : Nat) : i * 2 ^^^ 1 = i * 2 + 1 := by
  apply Nat.eq_of_testBit_eq
  intro j
  cases j with
  | zero =>
      have h1 : i * 2 % 2 = 0 := by omega
      have h2 : (i * 2 + 1) % 2 = 1 := by omega
      simp [Nat.testBit_xor, Nat.testBit_zero, h1, h2]
  | succ j =>
      have h1 : i * 2 / 2 = i := by omega
      have h2 : (i * 2 + 1) / 2 = i := by omega
      rw [Nat.testBit_xor]
      simp [Nat.testBit_succ, h1, h2]

theorem leafDataIndices_append (a b : List Event) :
    leafDataIndices (a ++ b) = leafDataIndices a ++ leafDataIndices b := by
  simp [leafDataIndices]

theorem leafDataIndices_open (id : NodeID) (info : NodeInfo) (l : List Event) :
    leafDataIndices (Event.openNode id info :: l) = leafDataIndices l := rfl

theorem perfectInnerAux_leafData (mega L : Nat) :
    ∀ index top st, L ≤ mega →
      leafDataIndices (perfectInnerAux mega L index top st).2 =
        List.range' (index * 2 ^ L) (2 ^ L) := by
  induction L with
  | zero =>
      intro index top st _
      simp [perfectInnerAux, drawLeaf, leafDataIndices]
  | succ l ih =>
      intro index top st h
      have hm : ¬(l + 1 > mega) := by omega
      simp only [perfectInnerAux, if_neg hm]
      rw [leafDataIndices_open, leafDataIndices_append, leafDataIndices_append]
      rw [show leafDataIndices [Event.closeNode] = [] from rfl, List.append_nil]
      rw [show (⟨l, index * 2⟩ : NodeID).sibling.index = index * 2 ^^^ 1 from rfl]
      rw [ih (index * 2) false _ (by omega)]
      rw [mul_two_xor_one]
      rw [ih (index * 2 + 1) false _ (by omega)]
      have e1 : index * 2 * 2 ^ l = index * 2 ^ (l + 1) := by ring
      have e2 : (index * 2 + 1) * 2 ^ l = index * 2 ^ (l + 1) + 2 ^ l := by ring
      rw [e1, e2, List.range'_append_1]
      congr 1
      ring

theorem alignedLevelAux_spec (lo hi : Nat) :
    ∀ fuel l, lo % 2 ^ l = 0 → lo + 2 ^ l ≤ hi →
      lo % 2 ^ (alignedLevelAux lo hi fuel l) = 0 ∧
        lo + 2 ^ (alignedLevelAux lo hi fuel l) ≤ hi := by
  intro fuel
  induction fuel with
  | zero => intro l h1 h2; exact ⟨h1, h2⟩
  | succ f ih =>
      intro l h1 h2
      by_cases hc : lo % 2 ^ (l + 1) = 0 ∧ lo + 2 ^ (l + 1) ≤ hi
      · simp only [alignedLevelAux, if_pos hc]
        exact ih (l + 1) hc.1 hc.2
      · simp only [alignedLevelAux, if_neg hc]
        exact ⟨h1, h2⟩

theorem maxAlignedLevel_spec (lo hi : Nat) (h : lo < hi) :
    lo % 2 ^ (maxAlignedLevel lo hi) = 0 ∧ lo + 2 ^ (maxAlignedLevel lo hi) ≤ hi :=
  alignedLevelAux_spec lo hi hi 0 (by simp [Nat.mod_one]) (by simpa using h)

theorem rootsCoveringAux_partition (hi : Nat) :
    ∀ fuel lo, hi ≤ lo + fuel →
      coverConcat (rootsCoveringAux hi fuel lo) = List.range' lo (hi - lo) := by
  intro fuel
  induction fuel with
  | zero =>
      intro lo h
      have h0 : hi - lo = 0 := by omega
      simp [rootsCoveringAux, coverConcat, h0]
  | succ f ih =>
      intro lo h
      by_cases hlt : lo < hi
      · obtain ⟨hdvd, hle⟩ := maxAlignedLevel_spec lo hi hlt
        have hpow : 0 < 2 ^ maxAlignedLevel lo hi := Nat.two_pow_pos _
        simp only [rootsCoveringAux, if_pos hlt, coverConcat]
        have hq : lo / 2 ^ maxAlignedLevel lo hi * 2 ^ maxAlignedLevel lo hi = lo :=
          Nat.div_mul_cancel (Nat.dvd_of_mod_eq_zero hdvd)
        rw [ih (lo + 2 ^ maxAlignedLevel lo hi) (by omega)]
        rw [show coverageList ⟨maxAlignedLevel lo hi, lo / 2 ^ maxAlignedLevel lo hi⟩ =
          List.range' (lo / 2 ^ maxAlignedLevel lo hi * 2 ^ maxAlignedLevel lo hi)
            (2 ^ maxAlignedLevel lo hi) from rfl]
        rw [hq]
        rw [show hi - (lo + 2 ^ maxAlignedLevel lo hi) =
          hi - lo - 2 ^ maxAlignedLevel lo hi from by omega]
        rw [List.range'_append_1]
        congr 1
        omega
      · have h0 : hi - lo = 0 := by omega
        simp [rootsCoveringAux, hlt, coverConcat, h0]

theorem renderSeq_leafData (mega : Nat) (ids : List NodeID) :
    ∀ st, (∀ id ∈ ids, id.level ≤ mega) →
      leafDataIndices (renderSeq mega ids st).2 = coverConcat ids := by
  induction ids with
  | nil => intro st _; rfl
  | cons id rest ih =>
      intro st h
      cases rest with
      | nil =>
          rw [show (renderSeq mega [id] st).2 =
            (perfectInnerAux mega id.level id.index true st).2 from rfl]
          rw [perfectInnerAux_leafData mega id.level id.index true st (h id (by simp))]
          simp [coverConcat, coverageList]
      | cons r rs =>
          rw [show (renderSeq mega (id :: r :: rs) st).2 =
            Event.openNode id.parent
                ((modifyNodeInfo id.parent setEphemeral st) id.parent) ::
              (((perfect mega id (modifyNodeInfo id.parent setEphemeral st)).2 ++
                (renderSeq mega (r :: rs)
                  (perfect mega id (modifyNodeInfo id.parent setEphemeral st)).1).2) ++
                [Event.closeNode]) from rfl]
          rw [leafDataIndices_open, leafDataIndices_append, leafDataIndices_append]
          rw [show leafDataIndices [Event.closeNode] = [] from rfl, List.append_nil]
          rw [show (perfect mega id (modifyNodeInfo id.parent setEphemeral st)).2 =
            (perfectInnerAux mega id.level id.index true
              (modifyNodeInfo id.parent setEphemeral st)).2 from rfl]
          rw [perfectInnerAux_leafData mega id.level id.index true _ (h id (by simp))]
          rw [ih _ (fun x hx => h x (List.mem_cons_of_mem _ hx))]
          simp [coverConcat, coverageList]

/-- C1 (counterexample): the claim quantifies over every tree size, but
with the default collapse threshold 4 a tree of size 32 is a single
perfect subtree of level 5, which is collapsed into a mega block, so no
leaf-data node at all is emitted. -/
theorem c1_counterexample :
    (0 : Nat) < 32 ∧
    leafDataIndices (renderTree 32 4 initTable).2 ≠ List.range 32 := by
  refine ⟨by decide, by decide⟩

/-- C1 (amended): for every tree size greater than 0 such that no root of
the perfect-subtree decomposition exceeds the collapse threshold (so no
subtree is collapsed into a mega block), the rendering pass emits a
leaf-data node for exactly the leaf indices `{0, ..., size-1}`, each
emitted exactly once, in ascending index order; leaves inside a
collapsed subtree are absorbed into its mega block and get no leaf-data
node. -/
theorem c1_leafData_complete (size mega : Nat) (st : Table) (h0 : 0 < size)
    (h : ∀ id ∈ rootsCovering 0 size, id.level ≤ mega) :
    leafDataIndices (renderTree size mega st).2 = List.range size := by
  rw [renderTree, renderSeq_leafData mega _ st h]
  rw [show rootsCovering 0 size = rootsCoveringAux size (size - 0) 0 from rfl]
  rw [rootsCoveringAux_partition size (size - 0) 0 (by omega)]
  simp [List.range_eq_range']

/-- C1 (witness): size 5 with threshold 4 emits leaf-data nodes 0..4 in
order. -/
theorem c1_witness :
    (0 : Nat) < 5 ∧ (∀ id ∈ rootsCovering 0 5, id.level ≤ 4) ∧
    leafDataIndices (renderTree 5 4 initTable).2 = List.range 5 :=
  ⟨by decide, by decide, c1_leafData_complete 5 4 initTable (by decide) (by decide)⟩

/-! ### Range validation and application -/

theorem markLeavesAux_dri (ri r : Nat) :
    ∀ fuel i st jx, ((markLeavesAux ri r fuel i st) ⟨0, jx⟩).dataRangeIndices =
      (st ⟨0, jx⟩).dataRangeIndices ++
        (if i ≤ jx ∧ jx < r ∧ jx < i + fuel then [ri] else []) := by
  intro fuel
  induction fuel with
  | zero =>
      intro i st jx
      have hcond : ¬(i ≤ jx ∧ jx < r ∧ jx < i + 0) := by omega
      simp [markLeavesAux, hcond]
      omega
  | succ f ih =>
      intro i st jx
      by_cases hir : i < r
      · simp only [markLeavesAux, if_pos hir]
        rw [ih]
        by_cases hji : jx = i
        · subst hji
          rw [modify_apply_eq]
          have hc1 : ¬(jx + 1 ≤ jx ∧ jx < r ∧ jx < jx + 1 + f) := by omega
          have hc2 : jx ≤ jx ∧ jx < r ∧ jx < jx + (f + 1) := by omega
          simp [appendDataRange, hc1, hc2]
        · have hne : (⟨0, jx⟩ : NodeID) ≠ ⟨0, i⟩ := by simp [hji]
          rw [modify_apply_ne _ _ hne]
          have hiff : (i + 1 ≤ jx ∧ jx < r ∧ jx < i + 1 + f) ↔
              (i ≤ jx ∧ jx < r ∧ jx < i + (f + 1)) := by omega
          rw [if_congr hiff rfl rfl]
      · have hcond : ¬(i ≤ jx ∧ jx < r ∧ jx < i + (f + 1)) := by omega
        simp [markLeavesAux, hir, hcond]

theorem foldRange_dri (ri : Nat) (ids : List NodeID) :
    ∀ st j, ((ids.foldl (fun st id => modifyNodeInfo id (appendRangeIdx ri) st) st)
        j).dataRangeIndices = (st j).dataRangeIndices := by
  induction ids with
  | nil => intro st j; rfl
  | cons id rest ih =>
      intro st j
      rw [List.foldl_cons, ih]
      exact modify_preserve NodeInfo.dataRangeIndices (appendRangeIdx ri) (fun n => rfl) _ _ _

theorem applyRanges_dri (rngs : List (Nat × Nat)) :
    ∀ k st i, ((applyRanges k rngs st) ⟨0, i⟩).dataRangeIndices =
      (st ⟨0, i⟩).dataRangeIndices ++ coveringRangeIdxs k rngs i := by
  induction rngs with
  | nil => intro k st i; simp [applyRanges, coveringRangeIdxs]
  | cons p rest ih =>
      obtain ⟨l, r⟩ := p
      intro k st i
      simp only [applyRanges]
      rw [ih, foldRange_dri]
      simp only [markLeaves]
      rw [markLeavesAux_dri]
      have hiff : (l ≤ i ∧ i < r ∧ i < l + (r - l)) ↔ (l ≤ i ∧ i < r) := by omega
      rw [if_congr hiff rfl rfl]
      simp only [coveringRangeIdxs]
      rw [List.append_assoc]

theorem parseRangesAux_ok (treeSize : Nat) (pairs : List (Nat × Nat)) :
    (∀ p ∈ pairs, p.2 ≤ treeSize ∧ p.1 ≤ p.2) →
      parseRangesAux treeSize pairs = .ok pairs := by
  induction pairs with
  | nil => intro _; rfl
  | cons q rest ih =>
      intro h
      obtain ⟨l, r⟩ := q
      obtain ⟨h1, h2⟩ := h (l, r) (by simp)
      have hr : ¬ treeSize < r := by simpa using h1
      have hlr : ¬ r < l := by simpa using h2
      simp only [parseRangesAux, if_neg hr, if_neg hlr]
      rw [ih (fun p hp => h p (List.mem_cons_of_mem _ hp))]

theorem parseRangesAux_error (treeSize : Nat) (pairs : List (Nat × Nat)) :
    (∃ p ∈ pairs, treeSize < p.2 ∨ p.2 < p.1) →
      ∃ msg, parseRangesAux treeSize pairs = .error msg := by
  induction pairs with
  | nil => rintro ⟨p, hp, _⟩; cases hp
  | cons q rest ih =>
      obtain ⟨l, r⟩ := q
      rintro ⟨p, hp, hbad⟩
      by_cases h1 : treeSize < r
      · exact ⟨"range extends past end of tree", by simp [parseRangesAux, h1]⟩
      · by_cases h2 : r < l
        · exact ⟨"range elements are out of order", by simp [parseRangesAux, h1, h2]⟩
        · rcases List.mem_cons.mp hp with rfl | hmem
          · simp only at hbad
            omega
          · obtain ⟨msg, hmsg⟩ := ih ⟨p, hmem, hbad⟩
            exact ⟨msg, by simp [parseRangesAux, h1, h2, hmsg]⟩

theorem parseRangesAux_ok_eq (treeSize : Nat) (pairs : List (Nat × Nat)) :
    ∀ rngs, parseRangesAux treeSize pairs = .ok rngs → rngs = pairs := by
  induction pairs with
  | nil =>
      intro rngs h
      injection h with h
      exact h.symm
  | cons q rest ih =>
      obtain ⟨l, r⟩ := q
      intro rngs h
      simp only [parseRangesAux] at h
      by_cases h1 : treeSize < r
      · simp [h1] at h
      · by_cases h2 : r < l
        · simp [h1, h2] at h
        · simp only [if_neg h1, if_neg h2] at h
          rcases hx : parseRangesAux treeSize rest with msg | t
          · rw [hx] at h
            simp at h
          · rw [hx] at h
            have h3 : (l, r) :: t = rngs := by simpa using h
            subst h3
            rw [ih t hx]

/-- C8: range application fails with an error (and `main` aborts before
any rendering output) if more than 3 ranges are supplied, if any range
has `lo > hi`, or if any `hi > size`; otherwise it succeeds, and each
accepted range at position `ri` appends `ri` to `dataRangeIndices` of
exactly the leaves in `[lo, hi)`, so each leaf ends with exactly the
range numbers covering it, in ascending range order. -/
theorem c8_range_validation (pairs : List (Nat × Nat)) (size : Nat) (st : Table) :
    ((maxRanges < pairs.length ∨ ∃ p ∈ pairs, size < p.2 ∨ p.2 < p.1) →
      ∃ msg, modifyRangeNodeInfo pairs size st = .error msg) ∧
    ((pairs.length ≤ maxRanges ∧ ∀ p ∈ pairs, p.2 ≤ size ∧ p.1 ≤ p.2) →
      modifyRangeNodeInfo pairs size st = .ok (applyRanges 0 pairs st)) ∧
    (∀ st', modifyRangeNodeInfo pairs size st = .ok st' →
      ∀ i, (st' ⟨0, i⟩).dataRangeIndices =
        (st ⟨0, i⟩).dataRangeIndices ++ coveringRangeIdxs 0 pairs i) := by
  refine ⟨?_, ?_, ?_⟩
  · rintro (hlen | hbad)
    · exact ⟨"too many ranges", by simp [modifyRangeNodeInfo, parseRanges, hlen]⟩
    · by_cases hlen : maxRanges < pairs.length
      · exact ⟨"too many ranges", by simp [modifyRangeNodeInfo, parseRanges, hlen]⟩
      · obtain ⟨msg, hmsg⟩ := parseRangesAux_error size pairs hbad
        exact ⟨msg, by simp [modifyRangeNodeInfo, parseRanges, hlen, hmsg]⟩
  · rintro ⟨hlen, hok⟩
    have hnl : ¬ maxRanges < pairs.length := by omega
    simp [modifyRangeNodeInfo, parseRanges, hnl, parseRangesAux_ok size pairs hok]
  · intro st' hok i
    rcases hx : parseRanges pairs size with msg | rngs
    · simp [modifyRangeNodeInfo, hx] at hok
    · have hrw : rngs = pairs := by
        unfold parseRanges at hx
        by_cases hlen : maxRanges < pairs.length
        · simp [hlen] at hx
        · simp only [if_neg hlen] at hx
          exact parseRangesAux_ok_eq size pairs rngs hx
      subst hrw
      simp only [modifyRangeNodeInfo, hx] at hok
      have hst : applyRanges 0 rngs st = st' := by
        injection hok
      rw [← hst, applyRanges_dri]

/-- C8 (witness): the single range `[1:3)` over a size-8 tree is
accepted and leaf 2 ends up with `dataRangeIndices = [0]`. -/
theorem c8_witness :
    ([((1 : Nat), (3 : Nat))].length ≤ maxRanges ∧
      ∀ p ∈ [((1 : Nat), (3 : Nat))], p.2 ≤ 8 ∧ p.1 ≤ p.2) ∧
    modifyRangeNodeInfo [(1, 3)] 8 initTable = .ok (applyRanges 0 [(1, 3)] initTable) ∧
    ((applyRanges 0 [(1, 3)] initTable) ⟨0, 2⟩).dataRangeIndices = [0] :=
  ⟨⟨by decide, by decide⟩,
    (c8_range_validation [(1, 3)] 8 initTable).2.1 ⟨by decide, by decide⟩,
    by decide⟩


/-- C4 (counterexample): the claim says the proof fill overrides any fill
derived from `dataRangeIndices`; on the code, a leaf proof node carrying
exactly one data-range index is filled with the range colour
`target0!50`, not with `proof` (the range block of `nodeInfo.String`
runs after the proof block and overwrites `fill`). -/
theorem c4_counterexample :
    (NodeInfo.mk true false false false false true [0] []).proof = true ∧
    NodeInfo.fill (NodeInfo.mk true false false false false true [0] []) = "target0!50" ∧
    NodeInfo.fill (NodeInfo.mk true false false false false true [0] []) ≠ "proof" ∧
    NodeInfo.fill (NodeInfo.mk true false false false false true [0] []) ≠ "proof_ephemeral" := by
  refine ⟨rfl, rfl, by decide, by decide⟩

/-- C4 (amended): if `isProofNode` is set then the fill is the proof
colour (or the lighter ephemeral-proof shade when `isEphemeral` is also
set) whenever no single-entry range fill applies, but a fill derived
from exactly one entry of `dataRangeIndices` (leaves) or `rangeIndices`
(non-leaves) overrides the proof fill, since resolution steps 2-3 run
after the proof rule; target and inclusion-path fills are excluded here
as they come later still. -/
theorem c4_proof_fill (n : NodeInfo) (hp : n.proof = true) (ht : n.target = false)
    (hi : n.incPath = false) :
    (n.leaf = true → n.dataRangeIndices.length ≠ 1 →
        n.fill = (if n.ephemeral then "proof_ephemeral" else "proof")) ∧
    (n.leaf = false → n.rangeIndices.length ≠ 1 →
        n.fill = (if n.ephemeral then "proof_ephemeral" else "proof")) ∧
    (n.leaf = true → n.dataRangeIndices.length = 1 →
        n.fill = "target" ++ toString (n.dataRangeIndices.headD 0) ++ "!50") ∧
    (n.leaf = false → n.rangeIndices.length = 1 →
        n.fill = "range" ++ toString (n.rangeIndices.headD 0) ++ "!50") := by
  unfold NodeInfo.fill
  refine ⟨?_, ?_, ?_, ?_⟩ <;> intro h1 h2 <;> simp [hp, ht, hi, h1, h2]

/-- C4 (witness): on a plain internal proof node the proof fill stands. -/
theorem c4_witness :
    (NodeInfo.mk true false false false false false [] []).proof = true ∧
    NodeInfo.fill (NodeInfo.mk true false false false false false [] []) = "proof" := by
  refine ⟨rfl, ?_⟩
  have h := (c4_proof_fill (NodeInfo.mk true false false false false false [] [])
    rfl rfl rfl).2.1 rfl (by decide)
  simpa using h

/-- C7: a leaf-hash node whose annotation has nonempty
`dataRangeIndices` is emitted by `drawLeaf` with `incPath` cleared
(rendered as if it were not on the inclusion path), while for internal
nodes the inclusion-path fill always wins regardless of range
membership. -/
theorem c7_leaf_path_suppression (st : Table) (i : Nat)
    (h : (st ⟨0, i⟩).dataRangeIndices ≠ []) :
    (drawLeaf i st).2.head? =
      some (Event.leafHash i { st ⟨0, i⟩ with incPath := false }) ∧
    (∀ n : NodeInfo, n.leaf = false → n.incPath = true → n.fill = "target_path") := by
  constructor
  · have hl : (st ⟨0, i⟩).dataRangeIndices.length > 0 := List.length_pos.mpr h
    simp [drawLeaf, hl]
  · intro n _ hp
    simp [NodeInfo.fill, hp]

/-- C7 (witness): a concrete leaf in range 0 has its inclusion-path
highlight suppressed on the leaf-hash node. -/
theorem c7_witness :
    ((modifyNodeInfo ⟨0, 1⟩ (appendDataRange 0) initTable) ⟨0, 1⟩).dataRangeIndices ≠ [] ∧
    (drawLeaf 1 (modifyNodeInfo ⟨0, 1⟩ (appendDataRange 0) initTable)).2.head? =
      some (Event.leafHash 1
        { (modifyNodeInfo ⟨0, 1⟩ (appendDataRange 0) initTable) ⟨0, 1⟩ with incPath := false }) :=
  ⟨by decide, (c7_leaf_path_suppression _ 1 (by decide)).1⟩

/-- C9: the claim says size 0 and threshold 0 are rejected before
rendering; the code performs no such validation (its own
`TODO(al): check flag validity` admits this).  At tree size 0 the
decomposition is empty and `renderTree` completes normally emitting an
empty forest body (the static document wrapper is still printed), and a
collapse threshold of 0 is accepted and collapses even a height-1
subtree into a mega block. -/
theorem c9_no_validation :
    rootsCovering 0 0 = [] ∧
    (renderTree 0 4 initTable).2 = [] ∧
    (perfectInnerAux 0 1 0 true initTable).2 =
      [Event.openNode ⟨1, 0⟩ (setPerfectRoot true NodeInfo.empty),
        Event.megaBlock 0 2, Event.closeNode] := by
  refine ⟨rfl, rfl, by decide⟩

/-- C10: `modifyNodeInfo` is a read-modify-write of a single entry: every
other node's annotation is unchanged, the touched entry becomes `f` of
its old value, and each marking operation of the source changes only its
own field — in particular `setEphemeral` preserves previously appended
`rangeIndices` and `appendRangeIdx` preserves `ephemeral`, and likewise
for the remaining operations. -/
theorem c10_modify_frame (st : Table) (id j : NodeID) (f : NodeInfo → NodeInfo)
    (h : j ≠ id) :
    modifyNodeInfo id f st j = st j ∧
    modifyNodeInfo id f st id = f (st id) ∧
    (∀ n : NodeInfo, ∀ ri : Nat, ∀ top : Bool,
      ((setEphemeral n).rangeIndices = n.rangeIndices ∧
        (setEphemeral n).dataRangeIndices = n.dataRangeIndices ∧
        (setEphemeral n).proof = n.proof ∧
        (setEphemeral n).incPath = n.incPath ∧
        (setEphemeral n).target = n.target ∧
        (setEphemeral n).perfectRoot = n.perfectRoot ∧
        (setEphemeral n).leaf = n.leaf ∧
        (setEphemeral n).ephemeral = true) ∧
      ((appendRangeIdx ri n).ephemeral = n.ephemeral ∧
        (appendRangeIdx ri n).dataRangeIndices = n.dataRangeIndices ∧
        (appendRangeIdx ri n).proof = n.proof ∧
        (appendRangeIdx ri n).incPath = n.incPath ∧
        (appendRangeIdx ri n).target = n.target ∧
        (appendRangeIdx ri n).perfectRoot = n.perfectRoot ∧
        (appendRangeIdx ri n).leaf = n.leaf ∧
        (appendRangeIdx ri n).rangeIndices = n.rangeIndices ++ [ri]) ∧
      ((appendDataRange ri n).ephemeral = n.ephemeral ∧
        (appendDataRange ri n).rangeIndices = n.rangeIndices ∧
        (appendDataRange ri n).proof = n.proof ∧
        (appendDataRange ri n).incPath = n.incPath ∧
        (appendDataRange ri n).target = n.target ∧
        (appendDataRange ri n).perfectRoot = n.perfectRoot ∧
        (appendDataRange ri n).leaf = n.leaf ∧
        (appendDataRange ri n).dataRangeIndices = n.dataRangeIndices ++ [ri]) ∧
      ((setProof n).ephemeral = n.ephemeral ∧
        (setProof n).rangeIndices = n.rangeIndices ∧
        (setProof n).dataRangeIndices = n.dataRangeIndices ∧
        (setProof n).incPath = n.incPath ∧
        (setProof n).target = n.target ∧
        (setProof n).perfectRoot = n.perfectRoot ∧
        (setProof n).leaf = n.leaf ∧
        (setProof n).proof = true) ∧
      ((setIncPath n).ephemeral = n.ephemeral ∧
        (setIncPath n).rangeIndices = n.rangeIndices ∧
        (setIncPath n).dataRangeIndices = n.dataRangeIndices ∧
        (setIncPath n).proof = n.proof ∧
        (setIncPath n).target = n.target ∧
        (setIncPath n).perfectRoot = n.perfectRoot ∧
        (setIncPath n).leaf = n.leaf ∧
        (setIncPath n).incPath = true) ∧
      ((setPerfectRoot top n).ephemeral = n.ephemeral ∧
        (setPerfectRoot top n).rangeIndices = n.rangeIndices ∧
        (setPerfectRoot top n).dataRangeIndices = n.dataRangeIndices ∧
        (setPerfectRoot top n).proof = n.proof ∧
        (setPerfectRoot top n).target = n.target ∧
        (setPerfectRoot top n).incPath = n.incPath ∧
        (setPerfectRoot top n).leaf = n.leaf ∧
        (setPerfectRoot top n).perfectRoot = top)) :=
  ⟨modify_apply_ne f st h, modify_apply_eq id f st,
    fun _ _ _ =>
      ⟨⟨rfl, rfl, rfl, rfl, rfl, rfl, rfl, rfl⟩,
        ⟨rfl, rfl, rfl, rfl, rfl, rfl, rfl, rfl⟩,
        ⟨rfl, rfl, rfl, rfl, rfl, rfl, rfl, rfl⟩,
        ⟨rfl, rfl, rfl, rfl, rfl, rfl, rfl, rfl⟩,
        ⟨rfl, rfl, rfl, rfl, rfl, rfl, rfl, rfl⟩,
        ⟨rfl, rfl, rfl, rfl, rfl, rfl, rfl, rfl⟩⟩⟩

/-- C10 (witness): marking node (1,0) ephemeral leaves node (0,0)'s
annotation untouched. -/
theorem c10_witness :
    (⟨0, 0⟩ : NodeID) ≠ ⟨1, 0⟩ ∧
    modifyNodeInfo ⟨1, 0⟩ setEphemeral initTable ⟨0, 0⟩ = initTable ⟨0, 0⟩ :=
  ⟨by decide, (c10_modify_frame initTable ⟨1, 0⟩ ⟨0, 0⟩ setEphemeral (by decide)).1⟩

/-- C2 (counterexample): the claim says a collapsed subtree of level
`L > megaThreshold` comes with exactly `L - 1` invisible placeholder
nodes; at level 3 with threshold 2 the code emits exactly one
placeholder, not `3 - 1 = 2` (the placeholder loop runs for tiers
`L-2, ..., 1`). -/
theorem c2_counterexample :
    (1 : Nat) ≤ 2 ∧ (2 : Nat) < 3 ∧
    countPlaceholderOpens (perfectInnerAux 2 3 0 true initTable).2 = 1 ∧
    (1 : Nat) ≠ 3 - 1 := by
  refine ⟨by decide, by decide, by decide, by decide⟩

/-- C2 (amended): for every perfect subtree root of level strictly
greater than `megaThreshold >= 1`, the renderer opens the root node and
emits the subtree below it as exactly one collapsed mega block covering
the root's leaf range, plus exactly `level - 2` invisible placeholder
nodes (tiers `level-2` down to 1, closed innermost-first), and never
expands it into individual internal nodes. -/
theorem c2_mega_collapse (mega L index : Nat) (top : Bool) (st : Table)
    (hm : 1 ≤ mega) (hL : mega < L) :
    (perfectInnerAux mega L index top st).2 =
      Event.openNode ⟨L, index⟩ (setPerfectRoot top (st ⟨L, index⟩)) ::
        Event.megaBlock (index * 2 ^ L) ((index + 1) * 2 ^ L) ::
        ((List.range' 1 (L - 2)).reverse.map Event.placeholderOpen ++
          (List.replicate (L - 2) Event.placeholderClose ++ [Event.closeNode])) ∧
    countPlaceholderOpens (perfectInnerAux mega L index top st).2 = L - 2 := by
  obtain ⟨l, rfl⟩ : ∃ l, L = l + 1 := ⟨L - 1, by omega⟩
  have hgt : l + 1 > mega := hL
  constructor
  · simp [perfectInnerAux, hgt, perfectMegaEvents, NodeID.coverage, modify_apply_eq,
      List.append_assoc]
  · have hev : (perfectInnerAux mega (l + 1) index top st).2 =
        Event.openNode ⟨l + 1, index⟩
            (setPerfectRoot top (st ⟨l + 1, index⟩)) ::
          (perfectMegaEvents ⟨l + 1, index⟩ ++ [Event.closeNode]) := by
      simp [perfectInnerAux, hgt, modify_apply_eq]
    rw [hev]
    have h1 := count_placeholder_opens_map (List.range' 1 (l - 1))
    have h2 := count_placeholder_closes (l - 1)
    simp only [countPlaceholderOpens] at h1 h2
    simp [perfectMegaEvents, countPlaceholderOpens, isPlaceholderOpen, List.filter_append,
      h1, h2]

/-- C2 (witness): threshold 1, level 2 — one mega block, zero
placeholders. -/
theorem c2_witness :
    (1 : Nat) ≤ 1 ∧ (1 : Nat) < 2 ∧
    (perfectInnerAux 1 2 0 true initTable).2 =
      Event.openNode ⟨2, 0⟩ (setPerfectRoot true (initTable ⟨2, 0⟩)) ::
        Event.megaBlock (0 * 2 ^ 2) ((0 + 1) * 2 ^ 2) ::
        ((List.range' 1 (2 - 2)).reverse.map Event.placeholderOpen ++
          (List.replicate (2 - 2) Event.placeholderClose ++ [Event.closeNode])) :=
  ⟨by decide, by decide, (c2_mega_collapse 1 2 0 true initTable (by decide) (by decide)).1⟩

end Treetex
